import Mathlib

/-!
# log.h of the PojavLauncher JNI sources: the tagged severity logging helpers

`app_pojavlauncher/src/main/jni/log.h` is a header of preprocessor definitions:

    ifndef POJAVLAUNCHER_LOG_H / define POJAVLAUNCHER_LOG_H
    include <android/log.h>
    ifndef TAG / define TAG "jrelog" / endif
    define LOGE(...) __android_log_print(ANDROID_LOG_ERROR, TAG, __VA_ARGS__)
    define LOGW(...) __android_log_print(ANDROID_LOG_WARN,  TAG, __VA_ARGS__)
    define LOGI(...) __android_log_print(ANDROID_LOG_INFO,  TAG, __VA_ARGS__)
    define LOGD(...) __android_log_print(ANDROID_LOG_DEBUG, TAG, __VA_ARGS__)
    endif

The embedding is a small model of the C preprocessor (a table of definitions, a
stack of conditional groups, replacement of `__VA_ARGS__`, rescanning of the
replacement list) that processes the header line by line, followed by the
translation of an expanded invocation into a call of the platform primitive
`__android_log_print`.
-/

set_option autoImplicit false

namespace LogH

/-! ## Data model -/

/-- Values of the constant expressions that occur as arguments of the entry points:
integers, string literals and characters. -/
inductive CValue where
  | int (n : Int)
  | str (s : String)
  | chr (c : Char)
deriving DecidableEq, Repr

/-- Expressions of replacement lists and of invocation arguments, as far as `log.h` and
its call sites use them: an identifier (which may name a definition of the preprocessor
or an enumerator of the platform), a constant, and `__VA_ARGS__`. -/
inductive CExpr where
  | ident (name : String)
  | const (v : CValue)
  | vaArgs
deriving DecidableEq, Repr

/-- What a `#define` binds a name to. `objectLike body` is `#define NAME body`;
`variadicCall fn args` is `#define NAME(...) fn(args)`, the shape of the four entry
points. -/
inductive MacroDef where
  | objectLike (body : List CExpr)
  | variadicCall (fn : String) (args : List CExpr)
deriving DecidableEq, Repr

/-- Lines of a translation unit and of the header. -/
inductive Line where
  | ifndef (name : String)
  | ifdef (name : String)
  | endif
  | define (name : String) (d : MacroDef)
  | undef (name : String)
  | includeSys (path : String)
  | includeLog
  | text (s : String)
  | invoke (name : String) (args : List CExpr)
deriving DecidableEq, Repr

/-- Modelled from the spec: the severity constants of the platform logging API, which
`<android/log.h>` declares and the repository only names. Section 3 of the spec gives
the fixed enumeration ERROR, WARNING, INFO, DEBUG, each mapped to the corresponding
constant of the platform. -/
inductive android_LogPriority where
  | ANDROID_LOG_DEBUG
  | ANDROID_LOG_INFO
  | ANDROID_LOG_WARN
  | ANDROID_LOG_ERROR
deriving DecidableEq, Repr

/-- A call of the platform primitive
`__android_log_print(prio, tag, fmt, ...)`. -/
structure PrimCall where
  prio : android_LogPriority
  tag : String
  fmt : String
  args : List CValue
deriving DecidableEq, Repr

/-- The table of definitions in effect, most recent first. -/
abbrev Defs := List (String × MacroDef)

/-- State of the preprocessor: the definitions in effect, the stack of open conditional
groups (`true` for a group whose lines are processed), and, in order, the name of each
invocation processed so far with what it expanded to (`none` for an expansion that is
not a well-formed call of the primitive). -/
structure PP where
  defs : Defs
  conds : List Bool
  out : List (String × Option PrimCall)
deriving DecidableEq, Repr

/-! ## The header -/

/-- The four entry points of the header. -/
inductive EntryPoint where
  | LOGE
  | LOGW
  | LOGI
  | LOGD
deriving DecidableEq, Repr

/-- The name of an entry point in the source text. -/
def EntryPoint.name : EntryPoint → String
  | .LOGE => "LOGE"
  | .LOGW => "LOGW"
  | .LOGI => "LOGI"
  | .LOGD => "LOGD"

/-- The header `log.h`, line by line. -/
def log_h : List Line :=
  [ Line.ifndef "POJAVLAUNCHER_LOG_H",
    .define "POJAVLAUNCHER_LOG_H" (.objectLike []),
    .includeSys "android/log.h",
    Line.ifndef "TAG",
    .define "TAG" (.objectLike [.const (.str "jrelog")]),
    .endif,
    Line.ifdef "__cplusplus",
    .text "extern \"C\" \x7b",
    .endif,
    .define "LOGE" (.variadicCall "__android_log_print"
      [.ident "ANDROID_LOG_ERROR", .ident "TAG", .vaArgs]),
    .define "LOGW" (.variadicCall "__android_log_print"
      [.ident "ANDROID_LOG_WARN", .ident "TAG", .vaArgs]),
    .define "LOGI" (.variadicCall "__android_log_print"
      [.ident "ANDROID_LOG_INFO", .ident "TAG", .vaArgs]),
    .define "LOGD" (.variadicCall "__android_log_print"
      [.ident "ANDROID_LOG_DEBUG", .ident "TAG", .vaArgs]),
    Line.ifdef "__cplusplus",
    .text "\x7d",
    .endif,
    .endif ]

/-! ## The preprocessor -/

/-- The definition a name is bound to, if any. -/
def lookupDef (n : String) : Defs → Option MacroDef
  | [] => none
  | (k, d) :: rest => if k = n then some d else lookupDef n rest

/-- Whether a name is defined (`#ifdef`). -/
def isDefined (n : String) (ds : Defs) : Bool :=
  (lookupDef n ds).isSome

/-- Removal of every definition of a name (`#undef`). -/
def undefine (n : String) : Defs → Defs
  | [] => []
  | (k, d) :: rest => if k = n then undefine n rest else (k, d) :: undefine n rest

/-- Whether the lines at the current position are processed: every open conditional
group is one whose condition held. -/
def PP.active (st : PP) : Bool :=
  st.conds.all id

/-- Replacement of `__VA_ARGS__` in a replacement list by the arguments of the
invocation, in their order. -/
def substVaArgs (args : List CExpr) : List CExpr → List CExpr
  | [] => []
  | .vaArgs :: rest => args ++ substVaArgs args rest
  | e :: rest => e :: substVaArgs args rest

/-- Rescanning: an identifier that names an object-like definition is replaced by its
replacement list, which is rescanned in turn; a name is not replaced again inside its
own replacement (`hidden`). The fuel bounds the nesting depth. -/
def rescan (ds : Defs) : Nat → List String → List CExpr → List CExpr
  | 0, _, es => es
  | fuel + 1, hidden, es =>
    es.flatMap fun e =>
      match e with
      | .ident n =>
        if n ∈ hidden then [e]
        else
          match lookupDef n ds with
          | some (.objectLike body) => rescan ds fuel (n :: hidden) body
          | _ => [e]
      | _ => [e]

/-- Expansion of the invocation `name(args)`: the replacement list of a variadic
definition, callee first, with `__VA_ARGS__` replaced and the result rescanned. Each
nested replacement hides one more defined name, so a depth of one more than the number
of definitions is never exhausted. -/
def expandInvocation (ds : Defs) (name : String) (args : List CExpr) :
    Option (List CExpr) :=
  match lookupDef name ds with
  | some (.variadicCall fn body) =>
    some (rescan ds (ds.length + 1) [name] (.ident fn :: substVaArgs args body))
  | _ => none

/-- Modelled from the spec: the enumerators of `<android/log.h>` that the header names,
resolved to the severity constants of the platform. -/
def resolvePriority : String → Option android_LogPriority
  | "ANDROID_LOG_DEBUG" => some .ANDROID_LOG_DEBUG
  | "ANDROID_LOG_INFO" => some .ANDROID_LOG_INFO
  | "ANDROID_LOG_WARN" => some .ANDROID_LOG_WARN
  | "ANDROID_LOG_ERROR" => some .ANDROID_LOG_ERROR
  | _ => none

/-- The constant arguments of a call; `none` when one of them is not a constant. -/
def constArgs : List CExpr → Option (List CValue)
  | [] => some []
  | .const v :: rest => (constArgs rest).map (v :: ·)
  | _ :: _ => none

/-- An expanded invocation read as a call of the primitive: the callee is
`__android_log_print`, the first argument an enumerator of the platform, the second and
third string literals (tag and format), the rest constants. -/
def toPrimCall : List CExpr → Option PrimCall
  | .ident fn :: .ident p :: .const (.str tag) :: .const (.str fmt) :: rest =>
    if fn = "__android_log_print" then
      match resolvePriority p, constArgs rest with
      | some prio, some vs => some ⟨prio, tag, fmt, vs⟩
      | _, _ => none
    else none
  | _ => none

/-- The call that the invocation `name(args)` stands for under the definitions `ds`. -/
def expandCall (ds : Defs) (name : String) (args : List CExpr) : Option PrimCall :=
  (expandInvocation ds name args).bind toPrimCall

/-- One line of text other than the inclusion of `log.h`. Conditional directives
maintain the stack of groups; the other lines act only where lines are processed. A
`#define` of a name replaces what the name was bound to. The system header and plain
text bind no name of the preprocessor that `log.h` uses. -/
def stepBasic (st : PP) : Line → PP
  | Line.ifndef n => ⟨st.defs, (st.active && !isDefined n st.defs) :: st.conds, st.out⟩
  | Line.ifdef n => ⟨st.defs, (st.active && isDefined n st.defs) :: st.conds, st.out⟩
  | .endif => ⟨st.defs, st.conds.tail, st.out⟩
  | .define n d =>
    if st.active then ⟨(n, d) :: undefine n st.defs, st.conds, st.out⟩ else st
  | Line.undef n => if st.active then ⟨undefine n st.defs, st.conds, st.out⟩ else st
  | .includeSys _ => st
  | .includeLog => st
  | .text _ => st
  | .invoke n args =>
    if st.active then ⟨st.defs, st.conds, st.out ++ [(n, expandCall st.defs n args)]⟩
    else st

/-- Inclusion of `log.h`: its lines are processed in place. -/
def includeHeader (st : PP) : PP :=
  log_h.foldl stepBasic st

/-- One line of a translation unit. -/
def step (st : PP) : Line → PP
  | .includeLog => if st.active then includeHeader st else st
  | l => stepBasic st l

/-- Preprocessing of a sequence of lines from a given state. -/
def run (st : PP) (ls : List Line) : PP :=
  ls.foldl step st

/-- The state at the start of a translation unit with the given predefined names. -/
def PP.init (predefined : Defs) : PP :=
  ⟨predefined, [], []⟩

/-- The calls of the primitive that a translation unit compiles to, in order. -/
def callsOf (predefined : Defs) (tu : List Line) : List (Option PrimCall) :=
  (run (PP.init predefined) tu).out.map (·.2)

/-- The invocations processed from a state on, with what they expanded to. -/
def callsAfter (st : PP) (post : List Line) : List (String × Option PrimCall) :=
  (run ⟨st.defs, st.conds, []⟩ post).out

/-- The tag in effect under the definitions `ds`: the string literal that `TAG` stands
for. -/
def effectiveTag (ds : Defs) : Option String :=
  match lookupDef "TAG" ds with
  | some (.objectLike [.const (.str t)]) => some t
  | _ => none

/-- The argument list of an invocation with a format string and constant arguments. -/
def callArgs (fmt : String) (args : List CValue) : List CExpr :=
  .const (.str fmt) :: args.map .const

/-- The names of the platform that the replacement lists of the entry points mention:
the primitive and the four severity constants. -/
def platformNames : List String :=
  ["__android_log_print", "ANDROID_LOG_ERROR", "ANDROID_LOG_WARN", "ANDROID_LOG_INFO",
    "ANDROID_LOG_DEBUG"]

/-- A position at which `log.h` is included for the first time: lines are processed
there, the guard of the header is not defined, and the names of the platform are not
bound by the preprocessor. -/
def firstInclusion (st : PP) : Bool :=
  st.active && !isDefined "POJAVLAUNCHER_LOG_H" st.defs
    && platformNames.all fun n => !isDefined n st.defs

/-- The names on which the expansion of an entry point depends. -/
def facilityNames : List String :=
  ["TAG", "LOGE", "LOGW", "LOGI", "LOGD"] ++ platformNames

/-- The names of the four entry points. -/
def entryPointNames : List String :=
  ["LOGE", "LOGW", "LOGI", "LOGD"]

/-- A line that neither defines nor undefines a name of the facility. -/
def Line.keepsFacility : Line → Bool
  | .define n _ => !facilityNames.contains n
  | Line.undef n => !facilityNames.contains n
  | _ => true

/-! ## The platform primitive -/

/-- A message as the platform log sink receives it. -/
structure LogRecord where
  prio : android_LogPriority
  tag : String
  message : String
deriving DecidableEq, Repr

/-- Modelled from the spec: the rendering of a printf-style format string by the
platform primitive, which is not part of the repository. The flag says that the
previous character opened a conversion. The conversions `%d`, `%i`,
`%s`, `%c` and `%%` are modelled; any other conversion, a conversion without an
argument of its type, and an unfinished conversion are undefined at the platform layer
(`none`). Arguments left over are ignored. -/
def vformat : Bool → List Char → List CValue → Option (List Char)
  | false, [], _ => some []
  | true, [], _ => none
  | false, c :: rest, args =>
    if c = '%' then vformat true rest args
    else (vformat false rest args).map (c :: ·)
  | true, c :: rest, args =>
    if c = '%' then (vformat false rest args).map ('%' :: ·)
    else
      match args with
      | .int n :: args' =>
        if c = 'd' ∨ c = 'i' then (vformat false rest args').map ((toString n).toList ++ ·)
        else none
      | .str s :: args' =>
        if c = 's' then (vformat false rest args').map (s.toList ++ ·) else none
      | .chr ch :: args' =>
        if c = 'c' then (vformat false rest args').map (ch :: ·) else none
      | [] => none

/-- Modelled from the spec: the platform primitive `__android_log_print`, which is not
part of the repository: the message written under the given severity and tag is the
format string rendered with the arguments (sections 4.1 and 8 of the spec). -/
def android_log_print (c : PrimCall) : Option LogRecord :=
  (vformat false c.fmt.toList c.args).map fun m => ⟨c.prio, c.tag, String.mk m⟩

/-- What an expression yields to its context: nothing (`void`) or an `int`. -/
inductive CResult where
  | void
  | int (n : Int)
deriving DecidableEq, Repr

/-- The value of the expression `name(args)`. The replacement list of an entry point is
the call of the primitive itself, neither a statement nor a cast to `void`, so the
invocation yields what the primitive returns; `prim` is the result of the primitive on
the platform at hand. -/
def invocationValue (prim : PrimCall → CResult) (ds : Defs) (name : String)
    (args : List CExpr) : Option CResult :=
  (expandCall ds name args).map prim

/-! ## The statements of the specification -/

/-- Severities as section 3 of the specification lists them. -/
inductive Severity where
  | ERROR
  | WARNING
  | INFO
  | DEBUG
deriving DecidableEq, Repr

/-- The entry point that the specification assigns to a severity (section 6). -/
def Severity.entryPoint : Severity → EntryPoint
  | .ERROR => .LOGE
  | .WARNING => .LOGW
  | .INFO => .LOGI
  | .DEBUG => .LOGD

/-- The constant of the platform that the specification assigns to a severity. -/
def Severity.platformConstant : Severity → android_LogPriority
  | .ERROR => .ANDROID_LOG_ERROR
  | .WARNING => .ANDROID_LOG_WARN
  | .INFO => .ANDROID_LOG_INFO
  | .DEBUG => .ANDROID_LOG_DEBUG

/-- The entry points are void-returning, as the specification words it: every
invocation of an entry point yields no value, whatever the primitive returns. -/
def VoidReturning (prim : PrimCall → CResult) (ds : Defs) : Prop :=
  ∀ (ep : EntryPoint) (fmt : String) (args : List CValue),
    invocationValue prim ds ep.name (callArgs fmt args) = some .void

/-- The tag argument of an expanded invocation: the expression that follows the callee
and the severity. -/
def tagArgument : List CExpr → Option CExpr
  | _ :: _ :: e :: _ => some e
  | _ => none

/-- The tag arguments that the invocations among the lines processed from a state on
forward, in order: the name of each invocation with the tag argument of its expansion
(`none` when the expansion has none). Invocations in skipped groups forward nothing. -/
def tagsForwarded (st : PP) : List Line → List (String × Option CExpr)
  | [] => []
  | l :: ls =>
    (match l with
      | .invoke n args =>
        if st.active then [(n, (expandInvocation st.defs n args).bind tagArgument)] else []
      | _ => []) ++ tagsForwarded (step st l) ls

/-- What `TAG` stands for under the definitions `ds`: the expression that rescanning
puts in the place of the identifier `TAG`, through however many definitions. -/
def tagInEffect (ds : Defs) : Option CExpr :=
  (rescan ds (ds.length + 1) [] [.ident "TAG"]).head?

/-- The tag is immutable for the lifetime of a translation unit, as the specification
words it: whatever lines follow the inclusion of `log.h`, every invocation of an entry
point among them, whatever its arguments, forwards the tag that was in effect at the
inclusion. -/
def TagImmutable (st : PP) (post : List Line) : Prop :=
  ∀ e ∈ tagsForwarded st post, e.1 ∈ entryPointNames → e.2 = tagInEffect st.defs

/-! ## Auxiliary notions of the proofs -/

/-- The definitions in effect after the body of the header was processed under the
definitions `ds`, in closed form; `includeHeader_eq` shows that processing the header
line by line arrives at them. -/
def headerDefs (ds : Defs) : Defs :=
  let g : Defs :=
    ("POJAVLAUNCHER_LOG_H", .objectLike []) :: undefine "POJAVLAUNCHER_LOG_H" ds
  let t : Defs := if isDefined "TAG" ds then g
    else ("TAG", .objectLike [.const (.str "jrelog")]) :: undefine "TAG" g
  let e : Defs := ("LOGE", .variadicCall "__android_log_print"
      [.ident "ANDROID_LOG_ERROR", .ident "TAG", .vaArgs]) :: undefine "LOGE" t
  let w : Defs := ("LOGW", .variadicCall "__android_log_print"
      [.ident "ANDROID_LOG_WARN", .ident "TAG", .vaArgs]) :: undefine "LOGW" e
  let i : Defs := ("LOGI", .variadicCall "__android_log_print"
      [.ident "ANDROID_LOG_INFO", .ident "TAG", .vaArgs]) :: undefine "LOGI" w
  ("LOGD", .variadicCall "__android_log_print"
      [.ident "ANDROID_LOG_DEBUG", .ident "TAG", .vaArgs]) :: undefine "LOGD" i

/-- The names of the facility are bound as the first inclusion of the header leaves
them, with `t` the tag in effect. -/
def facilityIntact (t : String) (ds : Defs) : Prop :=
  lookupDef "TAG" ds = some (.objectLike [.const (.str t)]) ∧
  lookupDef "LOGE" ds = some (.variadicCall "__android_log_print"
    [.ident "ANDROID_LOG_ERROR", .ident "TAG", .vaArgs]) ∧
  lookupDef "LOGW" ds = some (.variadicCall "__android_log_print"
    [.ident "ANDROID_LOG_WARN", .ident "TAG", .vaArgs]) ∧
  lookupDef "LOGI" ds = some (.variadicCall "__android_log_print"
    [.ident "ANDROID_LOG_INFO", .ident "TAG", .vaArgs]) ∧
  lookupDef "LOGD" ds = some (.variadicCall "__android_log_print"
    [.ident "ANDROID_LOG_DEBUG", .ident "TAG", .vaArgs]) ∧
  lookupDef "__android_log_print" ds = none ∧
  lookupDef "ANDROID_LOG_ERROR" ds = none ∧
  lookupDef "ANDROID_LOG_WARN" ds = none ∧
  lookupDef "ANDROID_LOG_INFO" ds = none ∧
  lookupDef "ANDROID_LOG_DEBUG" ds = none

/-- What holds of an emitted invocation when the tag is the one in effect. -/
def TagIs (t : String) (e : String × Option PrimCall) : Prop :=
  e.1 ∈ entryPointNames → ∀ c : PrimCall, e.2 = some c → c.tag = t

/-! ## The preprocessor on the header -/

/-- A removed name is unbound, every other name is bound as before. -/
theorem lookupDef_undefine (m n : String) (ds : Defs) :
    lookupDef m (undefine n ds) = if m = n then none else lookupDef m ds := by
  induction ds with
  | nil => simp [undefine, lookupDef]
  | cons kd rest ih =>
    obtain ⟨k, d⟩ := kd
    by_cases hk : k = n
    · subst hk
      by_cases hm : m = k
      · subst hm; simp [undefine, lookupDef, ih]
      · have hm2 : ¬ k = m := fun h => hm h.symm
        simp [undefine, lookupDef, ih, hm, hm2]
    · by_cases hm : m = n
      · subst hm; simp [undefine, lookupDef, ih, hk]
      · simp [undefine, lookupDef, ih, hk, hm]

/-- The most recent definition is found first. -/
theorem lookupDef_cons (m k : String) (d : MacroDef) (ds : Defs) :
    lookupDef m ((k, d) :: ds) = if k = m then some d else lookupDef m ds := rfl

/-- Definedness after the removal of a name. -/
theorem isDefined_undefine (m n : String) (ds : Defs) :
    isDefined m (undefine n ds) = (!decide (m = n) && isDefined m ds) := by
  simp only [isDefined, lookupDef_undefine]
  by_cases h : m = n <;> simp [h]

/-- Definedness after one more definition. -/
theorem isDefined_cons (m k : String) (d : MacroDef) (ds : Defs) :
    isDefined m ((k, d) :: ds) = (decide (k = m) || isDefined m ds) := by
  simp only [isDefined, lookupDef_cons]
  by_cases h : k = m <;> simp [h]

/-- Processing the header line by line where the guard is not defined: the definitions
are those of `headerDefs`, the conditional groups are closed again, nothing is
emitted. -/
theorem includeHeader_eq (st : PP) (hact : st.active = true)
    (hg : isDefined "POJAVLAUNCHER_LOG_H" st.defs = false) :
    includeHeader st = ⟨headerDefs st.defs, st.conds, st.out⟩ := by
  simp only [PP.active] at hact
  cases htag : isDefined "TAG" st.defs <;> cases hcpp : isDefined "__cplusplus" st.defs <;>
    simp [includeHeader, log_h, stepBasic, PP.active, hact, hg, htag, hcpp,
      isDefined_undefine, isDefined_cons, headerDefs]

/-- Processing the header where the guard is defined changes nothing. -/
theorem includeHeader_skip (st : PP) (hact : st.active = true)
    (hg : isDefined "POJAVLAUNCHER_LOG_H" st.defs = true) :
    includeHeader st = st := by
  simp only [PP.active] at hact
  simp [includeHeader, log_h, stepBasic, PP.active, hact, hg]

/-- The header binds LOGE as the source writes it; likewise for LOGW, LOGI, LOGD. -/
theorem headerDefs_LOGE (ds : Defs) : lookupDef "LOGE" (headerDefs ds) =
    some (.variadicCall "__android_log_print"
      [.ident "ANDROID_LOG_ERROR", .ident "TAG", .vaArgs]) := by
  simp [headerDefs, lookupDef_cons, lookupDef_undefine]

theorem headerDefs_LOGW (ds : Defs) : lookupDef "LOGW" (headerDefs ds) =
    some (.variadicCall "__android_log_print"
      [.ident "ANDROID_LOG_WARN", .ident "TAG", .vaArgs]) := by
  simp [headerDefs, lookupDef_cons, lookupDef_undefine]

theorem headerDefs_LOGI (ds : Defs) : lookupDef "LOGI" (headerDefs ds) =
    some (.variadicCall "__android_log_print"
      [.ident "ANDROID_LOG_INFO", .ident "TAG", .vaArgs]) := by
  simp [headerDefs, lookupDef_cons, lookupDef_undefine]

theorem headerDefs_LOGD (ds : Defs) : lookupDef "LOGD" (headerDefs ds) =
    some (.variadicCall "__android_log_print"
      [.ident "ANDROID_LOG_DEBUG", .ident "TAG", .vaArgs]) := by
  simp [headerDefs, lookupDef_cons, lookupDef_undefine]

/-- The header leaves a definition of TAG alone and binds TAG to the fallback
otherwise. -/
theorem headerDefs_TAG (ds : Defs) : lookupDef "TAG" (headerDefs ds) =
    match lookupDef "TAG" ds with
    | some d => some d
    | none => some (.objectLike [.const (.str "jrelog")]) := by
  cases h : lookupDef "TAG" ds <;>
    simp [headerDefs, lookupDef_cons, lookupDef_undefine, isDefined, h]

/-- The header binds no name but its guard, TAG and the four entry points. -/
theorem headerDefs_other (ds : Defs) (m : String) (h1 : m ≠ "LOGE") (h2 : m ≠ "LOGW")
    (h3 : m ≠ "LOGI") (h4 : m ≠ "LOGD") (h5 : m ≠ "TAG") (h6 : m ≠ "POJAVLAUNCHER_LOG_H") :
    lookupDef m (headerDefs ds) = lookupDef m ds := by
  have h1' := Ne.symm h1
  have h2' := Ne.symm h2
  have h3' := Ne.symm h3
  have h4' := Ne.symm h4
  have h5' := Ne.symm h5
  have h6' := Ne.symm h6
  cases h : isDefined "TAG" ds <;>
    simp [headerDefs, lookupDef_cons, lookupDef_undefine, h, h1, h2, h3, h4, h5, h6, h1',
      h2', h3', h4', h5', h6']

/-- Rescanning nothing. -/
theorem rescan_nil (ds : Defs) (fuel : Nat) (hidden : List String) :
    rescan ds fuel hidden [] = [] := by
  cases fuel <;> simp [rescan]

/-- A constant is not replaced. -/
theorem rescan_const (ds : Defs) (fuel : Nat) (hidden : List String) (v : CValue)
    (es : List CExpr) :
    rescan ds fuel hidden (.const v :: es) = .const v :: rescan ds fuel hidden es := by
  cases fuel <;> simp [rescan]

/-- Constant arguments pass through rescanning unchanged. -/
theorem rescan_consts (ds : Defs) (fuel : Nat) (hidden : List String) (vs : List CValue) :
    rescan ds fuel hidden (vs.map .const) = vs.map .const := by
  induction vs with
  | nil => exact rescan_nil ds fuel hidden
  | cons v vs ih => rw [List.map_cons, rescan_const, ih]

/-- An identifier that the preprocessor does not bind is not replaced. -/
theorem rescan_ident_free (ds : Defs) (fuel : Nat) (hidden : List String) (n : String)
    (es : List CExpr) (hn : lookupDef n ds = none) :
    rescan ds fuel hidden (.ident n :: es) = .ident n :: rescan ds fuel hidden es := by
  cases fuel <;> simp [rescan, hn]

/-- An identifier bound to a constant is replaced by the constant. -/
theorem rescan_ident_literal (ds : Defs) (fuel : Nat) (hidden : List String) (n : String)
    (v : CValue) (es : List CExpr) (hn : lookupDef n ds = some (.objectLike [.const v]))
    (hh : n ∉ hidden) :
    rescan ds (fuel + 1) hidden (.ident n :: es) =
      .const v :: rescan ds (fuel + 1) hidden es := by
  have h := rescan_const ds fuel (n :: hidden) v []
  rw [rescan_nil] at h
  simp [rescan, hn, hh, h]

/-- The expansion of an invocation of an entry point, for arbitrary arguments. -/
theorem expandInvocation_entry (ds : Defs) (name p t : String) (args : List CExpr)
    (hep : lookupDef name ds = some (.variadicCall "__android_log_print"
      [.ident p, .ident "TAG", .vaArgs]))
    (hf : lookupDef "__android_log_print" ds = none) (hp : lookupDef p ds = none)
    (htag : lookupDef "TAG" ds = some (.objectLike [.const (.str t)])) :
    expandInvocation ds name args = some (.ident "__android_log_print" ::
      .ident p :: .const (.str t) :: rescan ds (ds.length + 1) [name] args) := by
  have hne : "TAG" ∉ [name] := by
    intro h
    rw [List.mem_singleton] at h
    rw [← h, htag] at hep
    cases hep
  simp only [expandInvocation, hep, substVaArgs, List.append_nil]
  rw [rescan_ident_free ds _ _ _ _ hf, rescan_ident_free ds _ _ p _ hp,
    rescan_ident_literal ds _ _ "TAG" _ _ htag hne]

/-- Constant arguments are read back as they were given. -/
theorem constArgs_map (vs : List CValue) : constArgs (vs.map .const) = some vs := by
  induction vs with
  | nil => rfl
  | cons v vs ih => simp [constArgs, ih]

/-- The call that an invocation of an entry point with a format string and constant
arguments stands for. -/
theorem expandCall_entry (ds : Defs) (name p t : String) (prio : android_LogPriority)
    (fmt : String) (args : List CValue)
    (hep : lookupDef name ds = some (.variadicCall "__android_log_print"
      [.ident p, .ident "TAG", .vaArgs]))
    (hf : lookupDef "__android_log_print" ds = none) (hp : lookupDef p ds = none)
    (hres : resolvePriority p = some prio)
    (htag : lookupDef "TAG" ds = some (.objectLike [.const (.str t)])) :
    expandCall ds name (callArgs fmt args) = some ⟨prio, t, fmt, args⟩ := by
  rw [expandCall, expandInvocation_entry ds name p t _ hep hf hp htag, callArgs,
    rescan_const, rescan_consts]
  simp [toPrimCall, hres, constArgs_map]

/-- The tag of the call that an invocation of an entry point stands for, for arbitrary
arguments. -/
theorem expandCall_entry_tag (ds : Defs) (name p t : String) (args : List CExpr)
    (c : PrimCall)
    (hep : lookupDef name ds = some (.variadicCall "__android_log_print"
      [.ident p, .ident "TAG", .vaArgs]))
    (hf : lookupDef "__android_log_print" ds = none) (hp : lookupDef p ds = none)
    (htag : lookupDef "TAG" ds = some (.objectLike [.const (.str t)]))
    (hc : expandCall ds name args = some c) : c.tag = t := by
  rw [expandCall, expandInvocation_entry ds name p t _ hep hf hp htag] at hc
  simp only [Option.some_bind] at hc
  generalize rescan ds (ds.length + 1) [name] args = rest at hc
  cases rest with
  | nil => simp [toPrimCall] at hc
  | cons e rest =>
    cases e with
    | const v =>
      cases v with
      | str f =>
        simp only [toPrimCall] at hc
        split at hc
        · split at hc
          · simp only [Option.some.injEq] at hc
            rw [← hc]
          · cases hc
        · cases hc
      | _ => simp [toPrimCall] at hc
    | _ => simp [toPrimCall] at hc

/-- A name is not defined exactly when it is bound to nothing. -/
theorem isDefined_eq_false (n : String) (ds : Defs) :
    isDefined n ds = false ↔ lookupDef n ds = none := by
  simp [isDefined]

/-- The tag in effect is `t` exactly when TAG is bound to the string literal `t`. -/
theorem effectiveTag_eq_some (ds : Defs) (t : String) :
    effectiveTag ds = some t ↔ lookupDef "TAG" ds = some (.objectLike [.const (.str t)]) := by
  constructor
  · intro h
    unfold effectiveTag at h
    split at h
    · rename_i u hu
      simp only [Option.some.injEq] at h
      rw [hu, h]
    · cases h
  · intro h
    simp [effectiveTag, h]

/-- What `firstInclusion` says, one fact at a time. -/
theorem firstInclusion_spec (st : PP) (h : firstInclusion st = true) :
    st.active = true ∧ isDefined "POJAVLAUNCHER_LOG_H" st.defs = false ∧
      lookupDef "__android_log_print" st.defs = none ∧
      lookupDef "ANDROID_LOG_ERROR" st.defs = none ∧
      lookupDef "ANDROID_LOG_WARN" st.defs = none ∧
      lookupDef "ANDROID_LOG_INFO" st.defs = none ∧
      lookupDef "ANDROID_LOG_DEBUG" st.defs = none := by
  simp only [firstInclusion, platformNames, List.all_cons, List.all_nil, Bool.and_true,
    Bool.and_eq_true, Bool.not_eq_true', isDefined_eq_false] at h
  obtain ⟨⟨h1, h2⟩, h3, h4, h5, h6, h7⟩ := h
  exact ⟨h1, (isDefined_eq_false _ _).2 h2, h3, h4, h5, h6, h7⟩

/-- After the first inclusion of the header the names of the facility are bound as the
header binds them. -/
theorem facilityIntact_includeHeader (st : PP) (hfirst : firstInclusion st = true)
    (t : String) (htag : effectiveTag (includeHeader st).defs = some t) :
    facilityIntact t (includeHeader st).defs := by
  obtain ⟨hact, hg, h0, h1, h2, h3, h4⟩ := firstInclusion_spec st hfirst
  rw [effectiveTag_eq_some] at htag
  rw [includeHeader_eq st hact hg] at htag ⊢
  refine ⟨htag, headerDefs_LOGE _, headerDefs_LOGW _, headerDefs_LOGI _, headerDefs_LOGD _,
    ?_, ?_, ?_, ?_, ?_⟩
  · rw [headerDefs_other _ _ (by decide) (by decide) (by decide) (by decide) (by decide)
      (by decide)]; exact h0
  · rw [headerDefs_other _ _ (by decide) (by decide) (by decide) (by decide) (by decide)
      (by decide)]; exact h1
  · rw [headerDefs_other _ _ (by decide) (by decide) (by decide) (by decide) (by decide)
      (by decide)]; exact h2
  · rw [headerDefs_other _ _ (by decide) (by decide) (by decide) (by decide) (by decide)
      (by decide)]; exact h3
  · rw [headerDefs_other _ _ (by decide) (by decide) (by decide) (by decide) (by decide)
      (by decide)]; exact h4

/-- Under intact definitions an entry point stands for the call of the primitive with
the constant of its severity, the tag in effect, and the format string and arguments as
given. -/
theorem expandCall_intact (ds : Defs) (t : String) (h : facilityIntact t ds) (s : Severity)
    (fmt : String) (args : List CValue) :
    expandCall ds s.entryPoint.name (callArgs fmt args) =
      some ⟨s.platformConstant, t, fmt, args⟩ := by
  obtain ⟨ht, hE, hW, hI, hD, pF, pE, pW, pI, pD⟩ := h
  cases s
  · exact expandCall_entry ds _ _ t _ fmt args hE pF pE rfl ht
  · exact expandCall_entry ds _ _ t _ fmt args hW pF pW rfl ht
  · exact expandCall_entry ds _ _ t _ fmt args hI pF pI rfl ht
  · exact expandCall_entry ds _ _ t _ fmt args hD pF pD rfl ht

/-- Every entry point is the entry point of a severity. -/
theorem entryPoint_surjective (ep : EntryPoint) : ∃ s : Severity, s.entryPoint = ep := by
  cases ep
  · exact ⟨.ERROR, rfl⟩
  · exact ⟨.WARNING, rfl⟩
  · exact ⟨.INFO, rfl⟩
  · exact ⟨.DEBUG, rfl⟩

/-- The removal of a name outside the facility leaves the facility intact. -/
theorem facilityIntact_undefine (t n : String) (ds : Defs)
    (hn : facilityNames.contains n = false) (h : facilityIntact t ds) :
    facilityIntact t (undefine n ds) := by
  simp only [facilityNames, platformNames, List.cons_append, List.nil_append,
    List.contains_cons, List.contains_nil, Bool.or_false, Bool.or_eq_false_iff,
    beq_eq_false_iff_ne, ne_eq] at hn
  obtain ⟨n1, n2, n3, n4, n5, n6, n7, n8, n9, n10⟩ := hn
  obtain ⟨ht, hE, hW, hI, hD, pF, pE, pW, pI, pD⟩ := h
  refine ⟨?_, ?_, ?_, ?_, ?_, ?_, ?_, ?_, ?_, ?_⟩ <;> rw [lookupDef_undefine] <;>
    simp [*, Ne.symm n1, Ne.symm n2, Ne.symm n3, Ne.symm n4, Ne.symm n5, Ne.symm n6,
      Ne.symm n7, Ne.symm n8, Ne.symm n9, Ne.symm n10]

/-- A definition of a name outside the facility leaves the facility intact. -/
theorem facilityIntact_define (t n : String) (d : MacroDef) (ds : Defs)
    (hn : facilityNames.contains n = false) (h : facilityIntact t ds) :
    facilityIntact t ((n, d) :: undefine n ds) := by
  have hu := facilityIntact_undefine t n ds hn h
  simp only [facilityNames, platformNames, List.cons_append, List.nil_append,
    List.contains_cons, List.contains_nil, Bool.or_false, Bool.or_eq_false_iff,
    beq_eq_false_iff_ne, ne_eq] at hn
  obtain ⟨n1, n2, n3, n4, n5, n6, n7, n8, n9, n10⟩ := hn
  obtain ⟨ht, hE, hW, hI, hD, pF, pE, pW, pI, pD⟩ := hu
  refine ⟨?_, ?_, ?_, ?_, ?_, ?_, ?_, ?_, ?_, ?_⟩ <;> rw [lookupDef_cons] <;> simp [*]

/-- Another inclusion of the header, guarded or not, leaves the facility intact. -/
theorem facilityIntact_reinclude (t : String) (st : PP) (hact : st.active = true)
    (h : facilityIntact t st.defs) :
    facilityIntact t (includeHeader st).defs ∧ (includeHeader st).out = st.out := by
  cases hg : isDefined "POJAVLAUNCHER_LOG_H" st.defs
  · rw [includeHeader_eq st hact hg]
    obtain ⟨ht, hE, hW, hI, hD, pF, pE, pW, pI, pD⟩ := h
    refine ⟨⟨?_, headerDefs_LOGE _, headerDefs_LOGW _, headerDefs_LOGI _, headerDefs_LOGD _,
      ?_, ?_, ?_, ?_, ?_⟩, rfl⟩
    · rw [headerDefs_TAG, ht]
    · rw [headerDefs_other _ _ (by decide) (by decide) (by decide) (by decide) (by decide)
        (by decide)]; exact pF
    · rw [headerDefs_other _ _ (by decide) (by decide) (by decide) (by decide) (by decide)
        (by decide)]; exact pE
    · rw [headerDefs_other _ _ (by decide) (by decide) (by decide) (by decide) (by decide)
        (by decide)]; exact pW
    · rw [headerDefs_other _ _ (by decide) (by decide) (by decide) (by decide) (by decide)
        (by decide)]; exact pI
    · rw [headerDefs_other _ _ (by decide) (by decide) (by decide) (by decide) (by decide)
        (by decide)]; exact pD
  · rw [includeHeader_skip st hact hg]
    exact ⟨h, rfl⟩

/-- The tag of whatever an invocation of an entry point expands to under intact
definitions. -/
theorem expandCall_intact_tag (ds : Defs) (t : String) (h : facilityIntact t ds)
    (n : String) (hn : n ∈ entryPointNames) (args : List CExpr) (c : PrimCall)
    (hc : expandCall ds n args = some c) : c.tag = t := by
  obtain ⟨ht, hE, hW, hI, hD, pF, pE, pW, pI, pD⟩ := h
  simp only [entryPointNames, List.mem_cons, List.mem_singleton, List.not_mem_nil,
    or_false] at hn
  rcases hn with rfl | rfl | rfl | rfl
  · exact expandCall_entry_tag ds _ _ t args c hE pF pE ht hc
  · exact expandCall_entry_tag ds _ _ t args c hW pF pW ht hc
  · exact expandCall_entry_tag ds _ _ t args c hI pF pI ht hc
  · exact expandCall_entry_tag ds _ _ t args c hD pF pD ht hc

/-- One line that keeps the facility leaves the facility intact. -/
theorem step_intact (t : String) (st : PP) (l : Line) (hl : l.keepsFacility = true)
    (h : facilityIntact t st.defs) : facilityIntact t (step st l).defs := by
  cases l with
  | ifndef n => exact h
  | ifdef n => exact h
  | endif => exact h
  | includeSys p => exact h
  | text s => exact h
  | define n d =>
    simp only [Line.keepsFacility, Bool.not_eq_true'] at hl
    simp only [step, stepBasic]
    split
    · exact facilityIntact_define t n d st.defs hl h
    · exact h
  | undef n =>
    simp only [Line.keepsFacility, Bool.not_eq_true'] at hl
    simp only [step, stepBasic]
    split
    · exact facilityIntact_undefine t n st.defs hl h
    · exact h
  | includeLog =>
    simp only [step]
    split
    · rename_i hact
      exact (facilityIntact_reinclude t st hact h).1
    · exact h
  | invoke n args =>
    simp only [step, stepBasic]
    split
    · exact h
    · exact h

/-- One line under intact definitions: every invocation emitted carries the tag. -/
theorem step_tags (t : String) (st : PP) (l : Line) (h : facilityIntact t st.defs)
    (hout : ∀ e ∈ st.out, TagIs t e) : ∀ e ∈ (step st l).out, TagIs t e := by
  cases l with
  | ifndef n => exact hout
  | ifdef n => exact hout
  | endif => exact hout
  | includeSys p => exact hout
  | text s => exact hout
  | define n d =>
    simp only [step, stepBasic]
    split
    · exact hout
    · exact hout
  | undef n =>
    simp only [step, stepBasic]
    split
    · exact hout
    · exact hout
  | includeLog =>
    simp only [step]
    split
    · rename_i hact
      rw [(facilityIntact_reinclude t st hact h).2]
      exact hout
    · exact hout
  | invoke n args =>
    simp only [step, stepBasic]
    split
    · intro e he
      rw [List.mem_append, List.mem_singleton] at he
      rcases he with he | rfl
      · exact hout e he
      · intro hn c hc
        exact expandCall_intact_tag st.defs t h n hn args c hc
    · exact hout

/-- Lines that keep the facility leave it intact. -/
theorem run_intact (t : String) (post : List Line)
    (hpost : ∀ l ∈ post, l.keepsFacility = true) (st : PP) (h : facilityIntact t st.defs) :
    facilityIntact t (run st post).defs := by
  induction post generalizing st with
  | nil => exact h
  | cons l post ih =>
    exact ih (fun k hk => hpost k (List.mem_cons_of_mem _ hk)) (step st l)
      (step_intact t st l (hpost l (List.mem_cons_self _ _)) h)

/-- Under lines that keep the facility every invocation emitted carries the tag. -/
theorem run_tags (t : String) (post : List Line)
    (hpost : ∀ l ∈ post, l.keepsFacility = true) (st : PP) (h : facilityIntact t st.defs)
    (hout : ∀ e ∈ st.out, TagIs t e) : ∀ e ∈ (run st post).out, TagIs t e := by
  induction post generalizing st with
  | nil => exact hout
  | cons l post ih =>
    exact ih (fun k hk => hpost k (List.mem_cons_of_mem _ hk)) (step st l)
      (step_intact t st l (hpost l (List.mem_cons_self _ _)) h) (step_tags t st l h hout)

/-- A format string without a percent sign is rendered as it stands. -/
theorem vformat_plain (cs : List Char) (args : List CValue) (h : '%' ∉ cs) :
    vformat false cs args = some cs := by
  induction cs with
  | nil => simp [vformat]
  | cons c cs ih =>
    rw [List.mem_cons, not_or] at h
    have hc : ¬ c = '%' := fun e => h.1 e.symm
    simp [vformat, hc, ih h.2]

/-- The first inclusion in closed form. -/
theorem includeHeader_first (st : PP) (hfirst : firstInclusion st = true) :
    includeHeader st = ⟨headerDefs st.defs, st.conds, st.out⟩ ∧ st.active = true := by
  obtain ⟨hact, hg, -⟩ := firstInclusion_spec st hfirst
  exact ⟨includeHeader_eq st hact hg, hact⟩

/-- An invocation of an entry point right after the first inclusion: one more entry,
nothing else changed. -/
theorem step_invoke_intact (st : PP) (hfirst : firstInclusion st = true) (t : String)
    (htag : effectiveTag (includeHeader st).defs = some t) (s : Severity) (fmt : String)
    (args : List CValue) :
    step (includeHeader st) (.invoke s.entryPoint.name (callArgs fmt args)) =
      ⟨(includeHeader st).defs, (includeHeader st).conds,
        (includeHeader st).out ++
          [(s.entryPoint.name, some ⟨s.platformConstant, t, fmt, args⟩)]⟩ := by
  have hx := expandCall_intact _ t (facilityIntact_includeHeader st hfirst t htag) s fmt args
  obtain ⟨heq, hact⟩ := includeHeader_first st hfirst
  have hact2 : (includeHeader st).active = true := by rw [heq]; exact hact
  simp only [step, stepBasic, hact2, if_true, hx]

/-- C1: after the inclusion of log.h, for every severity, effective tag, format string
and list of constant arguments, the invocation of the entry point of that severity adds
exactly one call of the primitive, with the platform constant of the severity, the
effective tag, and the format string and the arguments unchanged and in order; the
message the primitive writes for it is the format string rendered with the arguments. -/
theorem entry_point_forwards_one_call (st : PP) (hfirst : firstInclusion st = true)
    (t : String) (htag : effectiveTag (includeHeader st).defs = some t) (s : Severity)
    (fmt : String) (args : List CValue) :
    step (includeHeader st) (.invoke s.entryPoint.name (callArgs fmt args)) =
        ⟨(includeHeader st).defs, (includeHeader st).conds,
          (includeHeader st).out ++
            [(s.entryPoint.name, some ⟨s.platformConstant, t, fmt, args⟩)]⟩ ∧
      (expandCall (includeHeader st).defs s.entryPoint.name (callArgs fmt args)).bind
          android_log_print =
        (vformat false fmt.toList args).map fun m =>
          ⟨s.platformConstant, t, String.mk m⟩ := by
  refine ⟨step_invoke_intact st hfirst t htag s fmt args, ?_⟩
  rw [expandCall_intact _ t (facilityIntact_includeHeader st hfirst t htag) s fmt args]
  rfl

/-- Witness of C1, the scenario of the specification: with no override, the INFO entry
point with the format "loaded %d items" and the argument 5 forwards one call with the
severity INFO and the tag "jrelog", and the message is "loaded 5 items". -/
theorem entry_point_forwards_one_call_witness :
    firstInclusion (PP.init []) = true ∧
      effectiveTag (includeHeader (PP.init [])).defs = some "jrelog" ∧
      (step (includeHeader (PP.init []))
          (.invoke "LOGI" (callArgs "loaded %d items" [.int 5]))).out =
        [("LOGI", some ⟨.ANDROID_LOG_INFO, "jrelog", "loaded %d items", [.int 5]⟩)] ∧
      (expandCall (includeHeader (PP.init [])).defs "LOGI"
          (callArgs "loaded %d items" [.int 5])).bind android_log_print =
        some ⟨.ANDROID_LOG_INFO, "jrelog", "loaded 5 items"⟩ ∧
      callsOf [] [.includeLog, .invoke "LOGI" (callArgs "loaded %d items" [.int 5])] =
        [some ⟨.ANDROID_LOG_INFO, "jrelog", "loaded %d items", [.int 5]⟩] :=
  have h := entry_point_forwards_one_call (PP.init []) (by decide) "jrelog" (by decide)
    .INFO "loaded %d items" [.int 5]
  ⟨by decide, by decide, (congrArg PP.out h.1).trans (by decide), h.2.trans (by decide),
    by decide⟩

/-- C2: when TAG is not defined where log.h is included, the tag in effect afterwards is
the literal "jrelog", and every one of the four entry points forwards it. -/
theorem default_tag_is_jrelog (st : PP) (hfirst : firstInclusion st = true)
    (hno : isDefined "TAG" st.defs = false) (ep : EntryPoint) (fmt : String)
    (args : List CValue) :
    effectiveTag (includeHeader st).defs = some "jrelog" ∧
      ∃ prio : android_LogPriority,
        expandCall (includeHeader st).defs ep.name (callArgs fmt args) =
          some ⟨prio, "jrelog", fmt, args⟩ := by
  have htag : effectiveTag (includeHeader st).defs = some "jrelog" := by
    rw [effectiveTag_eq_some, (includeHeader_first st hfirst).1, headerDefs_TAG,
      (isDefined_eq_false _ _).1 hno]
  obtain ⟨s, rfl⟩ := entryPoint_surjective ep
  exact ⟨htag, s.platformConstant,
    expandCall_intact _ _ (facilityIntact_includeHeader st hfirst _ htag) s fmt args⟩

/-- Witness of C2: a translation unit that starts with the inclusion of log.h. -/
theorem default_tag_is_jrelog_witness :
    firstInclusion (PP.init []) = true ∧ isDefined "TAG" (PP.init []).defs = false ∧
      effectiveTag (includeHeader (PP.init [])).defs = some "jrelog" ∧
      ∃ prio : android_LogPriority,
        expandCall (includeHeader (PP.init [])).defs "LOGW" (callArgs "low memory" []) =
          some ⟨prio, "jrelog", "low memory", []⟩ :=
  ⟨by decide, by decide,
    default_tag_is_jrelog (PP.init []) (by decide) (by decide) .LOGW "low memory" []⟩

/-- C3: when TAG is defined as the string T where log.h is included, the tag in effect
afterwards is T, whatever T is, and every one of the four entry points forwards it; the
fallback does not replace it. -/
theorem override_tag_is_used (st : PP) (hfirst : firstInclusion st = true) (T : String)
    (hT : effectiveTag st.defs = some T) (ep : EntryPoint) (fmt : String)
    (args : List CValue) :
    effectiveTag (includeHeader st).defs = some T ∧
      ∃ prio : android_LogPriority,
        expandCall (includeHeader st).defs ep.name (callArgs fmt args) =
          some ⟨prio, T, fmt, args⟩ := by
  have htag : effectiveTag (includeHeader st).defs = some T := by
    rw [effectiveTag_eq_some] at hT ⊢
    rw [(includeHeader_first st hfirst).1, headerDefs_TAG, hT]
  obtain ⟨s, rfl⟩ := entryPoint_surjective ep
  exact ⟨htag, s.platformConstant,
    expandCall_intact _ _ (facilityIntact_includeHeader st hfirst _ htag) s fmt args⟩

/-- Witness of C3: the override is the empty string, defined on the line before the
inclusion. -/
theorem override_tag_is_used_witness :
    firstInclusion (step (PP.init []) (.define "TAG" (.objectLike [.const (.str "")]))) =
        true ∧
      effectiveTag (step (PP.init []) (.define "TAG" (.objectLike [.const (.str "")]))).defs =
        some "" ∧
      effectiveTag
        (includeHeader (step (PP.init [])
          (.define "TAG" (.objectLike [.const (.str "")])))).defs = some "" ∧
      ∃ prio : android_LogPriority,
        expandCall
            (includeHeader (step (PP.init [])
              (.define "TAG" (.objectLike [.const (.str "")])))).defs
            "LOGE" (callArgs "failed" []) =
          some ⟨prio, "", "failed", []⟩ :=
  ⟨by decide, by decide,
    override_tag_is_used
      (step (PP.init []) (.define "TAG" (.objectLike [.const (.str "")])))
      (by decide) "" (by decide) .LOGE "failed" []⟩

/-- C4: for every entry point and every format string without a conversion
specification (no percent sign), the invocation with that format string and no further
argument forwards a call for which the primitive writes the format string itself. -/
theorem plain_format_rendered_unchanged (st : PP) (hfirst : firstInclusion st = true)
    (t : String) (htag : effectiveTag (includeHeader st).defs = some t) (ep : EntryPoint)
    (fmt : String) (hplain : '%' ∉ fmt.toList) :
    ∃ prio : android_LogPriority,
      (expandCall (includeHeader st).defs ep.name (callArgs fmt [])).bind
          android_log_print = some ⟨prio, t, fmt⟩ := by
  obtain ⟨s, rfl⟩ := entryPoint_surjective ep
  refine ⟨s.platformConstant, ?_⟩
  rw [expandCall_intact _ t (facilityIntact_includeHeader st hfirst t htag) s fmt []]
  simp only [Option.some_bind, android_log_print, vformat_plain _ _ hplain, Option.map_some']
  rfl

/-- Witness of C4: the DEBUG entry point with the format "ready". -/
theorem plain_format_rendered_unchanged_witness :
    firstInclusion (PP.init []) = true ∧
      effectiveTag (includeHeader (PP.init [])).defs = some "jrelog" ∧
      '%' ∉ "ready".toList ∧
      ∃ prio : android_LogPriority,
        (expandCall (includeHeader (PP.init [])).defs "LOGD" (callArgs "ready" [])).bind
            android_log_print = some ⟨prio, "jrelog", "ready"⟩ :=
  ⟨by decide, by decide, by decide,
    plain_format_rendered_unchanged (PP.init []) (by decide) "jrelog" (by decide) .LOGD
      "ready" (by decide)⟩

/-- C5 as stated fails: on a platform whose primitive returns the integer 1, the INFO
entry point yields that integer to its caller, not nothing. -/
theorem entry_points_not_void :
    invocationValue (fun _ => CResult.int 1) (includeHeader (PP.init [])).defs "LOGI"
        (callArgs "x" []) = some (CResult.int 1) ∧
      ¬ VoidReturning (fun _ => CResult.int 1) (includeHeader (PP.init [])).defs :=
  ⟨by decide, fun h => absurd (h .LOGI "x" []) (by decide)⟩

/-- C5 amended: each entry point is an expression whose value is the result of the call
of the primitive that it forwards; the facility neither inspects nor changes that
result. -/
theorem entry_point_yields_primitive_result (prim : PrimCall → CResult) (st : PP)
    (hfirst : firstInclusion st = true) (t : String)
    (htag : effectiveTag (includeHeader st).defs = some t) (s : Severity) (fmt : String)
    (args : List CValue) :
    invocationValue prim (includeHeader st).defs s.entryPoint.name (callArgs fmt args) =
      some (prim ⟨s.platformConstant, t, fmt, args⟩) := by
  rw [invocationValue,
    expandCall_intact _ t (facilityIntact_includeHeader st hfirst t htag) s fmt args]
  rfl

/-- Witness of C5 amended: a primitive that returns the negated length of the format
string. -/
theorem entry_point_yields_primitive_result_witness :
    firstInclusion (PP.init []) = true ∧
      effectiveTag (includeHeader (PP.init [])).defs = some "jrelog" ∧
      invocationValue (fun c => CResult.int (-(c.fmt.length : Int)))
          (includeHeader (PP.init [])).defs "LOGE" (callArgs "oops" []) =
        some (CResult.int (-4)) :=
  ⟨by decide, by decide,
    entry_point_yields_primitive_result (fun c => CResult.int (-(c.fmt.length : Int)))
      (PP.init []) (by decide) "jrelog" (by decide) .ERROR "oops" []⟩

/-- C6: the facility has no failure semantics of its own: for every entry point, tag in
effect, format string and argument list, well-formed for the primitive or not, the
invocation changes nothing in the state of the preprocessor but the list of forwarded
calls, to which it adds the call with the format string and the arguments as given;
nothing is rejected or altered. -/
theorem no_validation_at_this_layer (st : PP) (hfirst : firstInclusion st = true)
    (t : String) (htag : effectiveTag (includeHeader st).defs = some t) (ep : EntryPoint)
    (fmt : String) (args : List CValue) :
    ∃ prio : android_LogPriority,
      step (includeHeader st) (.invoke ep.name (callArgs fmt args)) =
        ⟨(includeHeader st).defs, (includeHeader st).conds,
          (includeHeader st).out ++ [(ep.name, some ⟨prio, t, fmt, args⟩)]⟩ := by
  obtain ⟨s, rfl⟩ := entryPoint_surjective ep
  exact ⟨s.platformConstant, step_invoke_intact st hfirst t htag s fmt args⟩

/-- Witness of C6: a format string with a conversion that does not fit its argument and
an unfinished conversion, which the primitive cannot render, is forwarded as given. -/
theorem no_validation_at_this_layer_witness :
    firstInclusion (PP.init []) = true ∧
      effectiveTag (includeHeader (PP.init [])).defs = some "jrelog" ∧
      vformat false "%d %".toList [.str "x"] = none ∧
      ∃ prio : android_LogPriority,
        step (includeHeader (PP.init [])) (.invoke "LOGE" (callArgs "%d %" [.str "x"])) =
          ⟨(includeHeader (PP.init [])).defs, (includeHeader (PP.init [])).conds,
            (includeHeader (PP.init [])).out ++
              [("LOGE", some ⟨prio, "jrelog", "%d %", [.str "x"]⟩)]⟩ :=
  ⟨by decide, by decide, by decide,
    no_validation_at_this_layer (PP.init []) (by decide) "jrelog" (by decide) .LOGE
      "%d %" [.str "x"]⟩

/-- Where `TAG` is bound directly to a string literal, that literal is what `TAG` stands
for. -/
theorem tagInEffect_literal (ds : Defs) (t : String)
    (h : lookupDef "TAG" ds = some (.objectLike [.const (.str t)])) :
    tagInEffect ds = some (.const (.str t)) := by
  rw [tagInEffect, rescan_ident_literal ds _ [] "TAG" _ [] h (List.not_mem_nil _), rescan_nil]
  rfl

/-- Under intact definitions the tag argument of an invocation of an entry point is the
literal in effect, whatever the arguments of the invocation. -/
theorem tagArgument_intact (ds : Defs) (t : String) (h : facilityIntact t ds) (n : String)
    (hn : n ∈ entryPointNames) (args : List CExpr) :
    (expandInvocation ds n args).bind tagArgument = some (.const (.str t)) := by
  obtain ⟨ht, hE, hW, hI, hD, pF, pE, pW, pI, pD⟩ := h
  simp only [entryPointNames, List.mem_cons, List.mem_singleton, List.not_mem_nil,
    or_false] at hn
  rcases hn with rfl | rfl | rfl | rfl
  · rw [expandInvocation_entry ds _ _ t args hE pF pE ht]; rfl
  · rw [expandInvocation_entry ds _ _ t args hW pF pW ht]; rfl
  · rw [expandInvocation_entry ds _ _ t args hI pF pI ht]; rfl
  · rw [expandInvocation_entry ds _ _ t args hD pF pD ht]; rfl

/-- Under lines that keep the facility every invocation of an entry point forwards the
literal in effect as its tag argument. -/
theorem tagsForwarded_intact (t : String) (post : List Line)
    (hpost : ∀ l ∈ post, l.keepsFacility = true) (st : PP)
    (h : facilityIntact t st.defs) :
    ∀ e ∈ tagsForwarded st post, e.1 ∈ entryPointNames → e.2 = some (.const (.str t)) := by
  induction post generalizing st with
  | nil =>
    intro e he
    exact absurd he (List.not_mem_nil e)
  | cons l post ih =>
    intro e he hn
    have htail : e ∈ tagsForwarded (step st l) post → e.2 = some (.const (.str t)) :=
      fun he' => ih (fun k hk => hpost k (List.mem_cons_of_mem _ hk)) (step st l)
        (step_intact t st l (hpost l (List.mem_cons_self _ _)) h) e he' hn
    cases l with
    | invoke n args =>
      simp only [tagsForwarded, List.mem_append] at he
      rcases he with he | he
      · split at he
        · rw [List.mem_singleton] at he
          subst he
          exact tagArgument_intact st.defs t h n hn args
        · exact absurd he (List.not_mem_nil e)
      · exact htail he
    | _ =>
      simp only [tagsForwarded, List.nil_append] at he
      exact htail he

/-- C7 as stated fails. After the inclusion of log.h with no override, the lines
LOGI("a"), undef TAG, define TAG "other", LOGI("b") forward the tag "jrelog" and then
the tag "other": a later line of the translation unit changes the tag that later
invocations forward. The same happens without any later line that touches TAG, an
entry point or a name of the platform: with define MYTAG "x" and define TAG MYTAG before
the inclusion, the lines LOGI("a"), undef MYTAG, define MYTAG "y", LOGI("b") forward "x"
and then "y". -/
theorem tag_changes_after_redefinition :
    (tagInEffect (includeHeader (PP.init [])).defs = some (.const (.str "jrelog")) ∧
      tagsForwarded (includeHeader (PP.init []))
          [.invoke "LOGI" (callArgs "a" []), Line.undef "TAG",
            .define "TAG" (.objectLike [.const (.str "other")]),
            .invoke "LOGI" (callArgs "b" [])] =
        [("LOGI", some (.const (.str "jrelog"))), ("LOGI", some (.const (.str "other")))] ∧
      ¬ TagImmutable (includeHeader (PP.init []))
          [.invoke "LOGI" (callArgs "a" []), Line.undef "TAG",
            .define "TAG" (.objectLike [.const (.str "other")]),
            .invoke "LOGI" (callArgs "b" [])]) ∧
    (tagInEffect
          (includeHeader (run (PP.init [])
            [.define "MYTAG" (.objectLike [.const (.str "x")]),
              .define "TAG" (.objectLike [.ident "MYTAG"])])).defs =
        some (.const (.str "x")) ∧
      (∀ l ∈ [Line.invoke "LOGI" (callArgs "a" []), Line.undef "MYTAG",
          .define "MYTAG" (.objectLike [.const (.str "y")]),
          .invoke "LOGI" (callArgs "b" [])], l.keepsFacility = true) ∧
      tagsForwarded
          (includeHeader (run (PP.init [])
            [.define "MYTAG" (.objectLike [.const (.str "x")]),
              .define "TAG" (.objectLike [.ident "MYTAG"])]))
          [.invoke "LOGI" (callArgs "a" []), Line.undef "MYTAG",
            .define "MYTAG" (.objectLike [.const (.str "y")]),
            .invoke "LOGI" (callArgs "b" [])] =
        [("LOGI", some (.const (.str "x"))), ("LOGI", some (.const (.str "y")))] ∧
      ¬ TagImmutable
          (includeHeader (run (PP.init [])
            [.define "MYTAG" (.objectLike [.const (.str "x")]),
              .define "TAG" (.objectLike [.ident "MYTAG"])]))
          [.invoke "LOGI" (callArgs "a" []), Line.undef "MYTAG",
            .define "MYTAG" (.objectLike [.const (.str "y")]),
            .invoke "LOGI" (callArgs "b" [])]) :=
  ⟨⟨by decide, by decide, fun h =>
      absurd (h ("LOGI", some (.const (.str "other"))) (by decide) (by decide)) (by decide)⟩,
    ⟨by decide, by decide, by decide, fun h =>
      absurd (h ("LOGI", some (.const (.str "y"))) (by decide) (by decide)) (by decide)⟩⟩

/-- C7 amended: where, after a first inclusion of log.h, TAG is bound directly to a
string literal (the fallback "jrelog", or an override defined as a string literal), and
the lines after the inclusion neither define nor undefine TAG, an entry point or a name
of the platform that the entry points use (the primitive, a severity constant), every
invocation of an entry point among those lines, whatever its arguments, forwards that
literal as its tag; every call of the primitive that such an invocation stands for
carries it; and after those lines each entry point still stands for the call with that
tag. -/
theorem tag_stable_while_facility_kept (st : PP) (hfirst : firstInclusion st = true)
    (t : String) (htag : effectiveTag (includeHeader st).defs = some t) (post : List Line)
    (hpost : ∀ l ∈ post, l.keepsFacility = true) :
    tagInEffect (includeHeader st).defs = some (.const (.str t)) ∧
      TagImmutable (includeHeader st) post ∧
      (∀ e ∈ tagsForwarded (includeHeader st) post,
        e.1 ∈ entryPointNames → e.2 = some (.const (.str t))) ∧
      (∀ (n : String) (c : PrimCall), (n, some c) ∈ callsAfter (includeHeader st) post →
        n ∈ entryPointNames → c.tag = t) ∧
      ∀ (s : Severity) (fmt : String) (args : List CValue),
        expandCall (run (includeHeader st) post).defs s.entryPoint.name
            (callArgs fmt args) = some ⟨s.platformConstant, t, fmt, args⟩ := by
  have hint := facilityIntact_includeHeader st hfirst t htag
  generalize includeHeader st = st1 at htag hint ⊢
  have hlit := tagInEffect_literal st1.defs t hint.1
  have htok := tagsForwarded_intact t post hpost st1 hint
  refine ⟨hlit, ?_, htok, ?_, ?_⟩
  · intro e he hn
    rw [hlit]
    exact htok e he hn
  · intro n c hmem hn
    have hall : ∀ e ∈ (run ⟨st1.defs, st1.conds, []⟩ post).out, TagIs t e :=
      run_tags t post hpost ⟨st1.defs, st1.conds, []⟩ hint
        (fun e he => absurd he (List.not_mem_nil e))
    exact hall (n, some c) hmem hn c rfl
  · intro s fmt args
    exact expandCall_intact _ t (run_intact t post hpost st1 hint) s fmt args

/-- Witness of C7 amended: after the first inclusion under the fallback, an invocation, a
definition of another name, a second inclusion of log.h, a conditional group with an
invocation, and an invocation whose argument is not a constant; all three invocations
forward "jrelog". -/
theorem tag_stable_while_facility_kept_witness :
    firstInclusion (PP.init []) = true ∧
      effectiveTag (includeHeader (PP.init [])).defs = some "jrelog" ∧
      (∀ l ∈ [Line.invoke "LOGI" (callArgs "a" []), .define "VERBOSE" (.objectLike []),
          .includeLog, Line.ifdef "VERBOSE", .invoke "LOGD" (callArgs "b %d" [.int 2]),
          .endif, .invoke "LOGE" [.ident "n"]], l.keepsFacility = true) ∧
      tagsForwarded (includeHeader (PP.init []))
          [.invoke "LOGI" (callArgs "a" []), .define "VERBOSE" (.objectLike []),
            .includeLog, Line.ifdef "VERBOSE", .invoke "LOGD" (callArgs "b %d" [.int 2]),
            .endif, .invoke "LOGE" [.ident "n"]] =
        [("LOGI", some (.const (.str "jrelog"))), ("LOGD", some (.const (.str "jrelog"))),
          ("LOGE", some (.const (.str "jrelog")))] ∧
      (tagInEffect (includeHeader (PP.init [])).defs = some (.const (.str "jrelog")) ∧
        TagImmutable (includeHeader (PP.init []))
          [.invoke "LOGI" (callArgs "a" []), .define "VERBOSE" (.objectLike []),
            .includeLog, Line.ifdef "VERBOSE", .invoke "LOGD" (callArgs "b %d" [.int 2]),
            .endif, .invoke "LOGE" [.ident "n"]] ∧
        (∀ e ∈ tagsForwarded (includeHeader (PP.init []))
            [.invoke "LOGI" (callArgs "a" []), .define "VERBOSE" (.objectLike []),
              .includeLog, Line.ifdef "VERBOSE", .invoke "LOGD" (callArgs "b %d" [.int 2]),
              .endif, .invoke "LOGE" [.ident "n"]],
          e.1 ∈ entryPointNames → e.2 = some (.const (.str "jrelog"))) ∧
        (∀ (n : String) (c : PrimCall),
          (n, some c) ∈ callsAfter (includeHeader (PP.init []))
            [.invoke "LOGI" (callArgs "a" []), .define "VERBOSE" (.objectLike []),
              .includeLog, Line.ifdef "VERBOSE", .invoke "LOGD" (callArgs "b %d" [.int 2]),
              .endif, .invoke "LOGE" [.ident "n"]] →
          n ∈ entryPointNames → c.tag = "jrelog") ∧
        ∀ (s : Severity) (fmt : String) (args : List CValue),
          expandCall
              (run (includeHeader (PP.init []))
                [.invoke "LOGI" (callArgs "a" []), .define "VERBOSE" (.objectLike []),
                  .includeLog, Line.ifdef "VERBOSE",
                  .invoke "LOGD" (callArgs "b %d" [.int 2]), .endif,
                  .invoke "LOGE" [.ident "n"]]).defs
              s.entryPoint.name (callArgs fmt args) =
            some ⟨s.platformConstant, "jrelog", fmt, args⟩) :=
  ⟨by decide, by decide, by decide, by decide,
    tag_stable_while_facility_kept (PP.init []) (by decide) "jrelog" (by decide)
      [.invoke "LOGI" (callArgs "a" []), .define "VERBOSE" (.objectLike []), .includeLog,
        Line.ifdef "VERBOSE", .invoke "LOGD" (callArgs "b %d" [.int 2]), .endif,
        .invoke "LOGE" [.ident "n"]]
      (by decide)⟩

/-- C9: the severity that an entry point forwards depends on the entry point alone and
distinguishes the entry points: for any two positions of first inclusion, tags in
effect, format strings and argument lists, two invocations forward the same severity
exactly when they are invocations of the same entry point; and the tag, the format
string and the arguments forwarded are the tag in effect and the format string and
arguments given, whichever entry point is used. -/
theorem severity_injective_and_independent (sa sb : PP)
    (ha : firstInclusion sa = true) (hb : firstInclusion sb = true) (ta tb : String)
    (hta : effectiveTag (includeHeader sa).defs = some ta)
    (htb : effectiveTag (includeHeader sb).defs = some tb) (epa epb : EntryPoint)
    (fa fb : String) (xa xb : List CValue) :
    ∃ ca cb : PrimCall,
      expandCall (includeHeader sa).defs epa.name (callArgs fa xa) = some ca ∧
      expandCall (includeHeader sb).defs epb.name (callArgs fb xb) = some cb ∧
      (ca.prio = cb.prio ↔ epa = epb) ∧
      (ca.tag = ta ∧ ca.fmt = fa ∧ ca.args = xa) ∧
      (cb.tag = tb ∧ cb.fmt = fb ∧ cb.args = xb) := by
  obtain ⟨s, rfl⟩ := entryPoint_surjective epa
  obtain ⟨r, rfl⟩ := entryPoint_surjective epb
  refine ⟨_, _, expandCall_intact _ ta (facilityIntact_includeHeader sa ha ta hta) s fa xa,
    expandCall_intact _ tb (facilityIntact_includeHeader sb hb tb htb) r fb xb, ?_,
    ⟨rfl, rfl, rfl⟩, ⟨rfl, rfl, rfl⟩⟩
  cases s <;> cases r <;> simp [Severity.platformConstant, Severity.entryPoint]

/-- Witness of C9: the ERROR entry point under the default tag and the WARNING entry
point under an override forward different severities. -/
theorem severity_injective_and_independent_witness :
    firstInclusion (PP.init []) = true ∧
      firstInclusion (step (PP.init []) (.define "TAG" (.objectLike [.const (.str "net")]))) =
        true ∧
      ∃ ca cb : PrimCall,
        expandCall (includeHeader (PP.init [])).defs "LOGE" (callArgs "a" []) = some ca ∧
        expandCall
            (includeHeader (step (PP.init [])
              (.define "TAG" (.objectLike [.const (.str "net")])))).defs
            "LOGW" (callArgs "b %s" [.str "c"]) = some cb ∧
        (ca.prio = cb.prio ↔ EntryPoint.LOGE = EntryPoint.LOGW) ∧
        (ca.tag = "jrelog" ∧ ca.fmt = "a" ∧ ca.args = []) ∧
        (cb.tag = "net" ∧ cb.fmt = "b %s" ∧ cb.args = [.str "c"]) :=
  ⟨by decide, by decide,
    severity_injective_and_independent (PP.init [])
      (step (PP.init []) (.define "TAG" (.objectLike [.const (.str "net")])))
      (by decide) (by decide) "jrelog" "net" (by decide) (by decide) .LOGE .LOGW "a" "b %s"
      [] [.str "c"]⟩

end LogH
